import Mathlib

/-!
Verification of `src/nn/rtdetr/rtdetr_criterion.py` (Mask-RTDETR-PyTorch).

The file shallowly embeds the parts of the criterion that the claims are
about:

* the orchestrator's per-stage loss post-processing (non-finite
  stabilization, weight-table filtering, suffixing, dict merging) from
  `RTDETRCriterion.forward`;
* `accuracy` / the `class_error` diagnostic of `RTDETRCriterion.loss_labels`;
* `RTDETRCriterion.loss_labels_focal`;
* `point_sample` (a wrapper over bilinear `grid_sample` with
  `align_corners=False` and zero padding) and
  `get_uncertain_point_coords_with_randomness`;
* `RTDETRCriterion.get_cdn_matched_indices` (both denoising schemes);
* `dice_loss`.

Tensors are embedded as (nested) lists over `ℚ` where every involved
operation is rational, and over `ℝ` where the source applies
transcendental functions (`sigmoid`, `log`, `exp`, real powers).  Random
draws (`torch.rand`) are passed in as explicit arguments, so every
function is a deterministic function of the draw outcome.  Fatal
`assert` statements are embedded by returning `Option` (`none` = the
assertion fires and the call aborts).
-/

/- ===================== DEFINITIONS ===================== -/

/-! ### Orchestrator: loss values with non-finite states

`RTDETRCriterion.forward` inspects each computed loss scalar with
`torch.isfinite` and repairs it with `torch.nan_to_num`.  A loss scalar
is embedded as a `Val`: either a finite rational or one of the three
non-finite IEEE states. -/

inductive Val where
  | fin (q : ℚ)
  | nan
  | pinf
  | ninf
deriving DecidableEq, Repr

/-- `torch.isfinite` on a loss scalar. -/
def Val.isFinite : Val → Bool
  | .fin _ => true
  | _ => false

/-- `torch.nan_to_num(v, nan=r, posinf=r, neginf=-r)` as used at
`rtdetr_criterion.py:427`. -/
def Val.nanToNum (v : Val) (r : ℚ) : Val :=
  match v with
  | .fin q => .fin q
  | .nan => .fin r
  | .pinf => .fin r
  | .ninf => .fin (-r)

/-- Multiplication of a loss scalar by a finite weight
(`l_dict[k] * self.weight_dict[k]`).  Only the finite case is exercised
after stabilization; the non-finite cases follow IEEE semantics. -/
def Val.mulWeight (v : Val) (w : ℚ) : Val :=
  match v with
  | .fin q => .fin (q * w)
  | .nan => .nan
  | .pinf => if 0 < w then .pinf else if w < 0 then .ninf else .nan
  | .ninf => if 0 < w then .ninf else if w < 0 then .pinf else .nan

/-- A Python dict of loss scalars, embedded as an association list with
distinct keys looked up by `List.lookup`. -/
abbrev LossDict := List (String × Val)

/-- The weight table `self.weight_dict`. -/
abbrev WeightDict := List (String × ℚ)

/-- Keys of a dict. -/
def dictKeys {β : Type} (d : List (String × β)) : List String :=
  d.map Prod.fst

/-- The in-place non-finite repair loop of `forward`
(`rtdetr_criterion.py:419-427`, repeated verbatim at 447-452, 472-477,
490-495): a non-finite value under key `k` is replaced by
`nan_to_num(v, nan=10*w, posinf=10*w, neginf=-(10*w))` where
`w = self.weight_dict.get(k, 1.0)`. -/
def stabilizeEntry (wd : WeightDict) (e : String × Val) : String × Val :=
  if e.2.isFinite then e
  else
    let w := (List.lookup e.1 wd).getD 1
    (e.1, e.2.nanToNum (10 * w))

/-- The weight-and-filter comprehension
`{k: l_dict[k] * self.weight_dict[k] for k in l_dict if k in self.weight_dict}`
(`rtdetr_criterion.py:428`). -/
def weightFilter (wd : WeightDict) (ld : LossDict) : LossDict :=
  ld.filterMap (fun e => (List.lookup e.1 wd).map (fun w => (e.1, e.2.mulWeight w)))

/-- One stage's post-processing of a computed `l_dict`: stabilize every
entry, filter/scale by the weight table, then append the stage suffix
(`''` for the main stage, `'_aux_{i}'`, `'_dn'`, `'_dn_{i}'` otherwise),
exactly in the order the source performs these three steps. -/
def processStage (wd : WeightDict) (ld : LossDict) (sfx : String) : LossDict :=
  (weightFilter wd (ld.map (stabilizeEntry wd))).map (fun e => (e.1 ++ sfx, e.2))

/-- Python `losses.update(l_dict)`: entries of `l` override entries of
`m` with the same key; all other entries of `m` survive. -/
def dictUpdate (m l : LossDict) : LossDict :=
  m.filter (fun e => (List.lookup e.1 l).isNone) ++ l

/-- The inner `for loss in self.losses:` loop of one stage of `forward`.
`getLoss` stands for `self.get_loss(loss, <stage outputs>, ...)` — the
numeric loss computation for this stage, abstracted as a function from
the requested loss name to the computed dict.  `hasMasks` embeds
`'pred_masks' in <stage outputs>`; the main stage has no skip condition,
which is recovered by passing `hasMasks := true`. -/
def stageLoop (lossNames : List String) (wd : WeightDict)
    (getLoss : String → LossDict) (hasMasks : Bool) (sfx : String)
    (acc : LossDict) : LossDict :=
  lossNames.foldl
    (fun acc name =>
      if name = "masks" ∧ hasMasks = false then acc
      else dictUpdate acc (processStage wd (getLoss name) sfx))
    acc

/-- The aggregation control flow of `RTDETRCriterion.forward`
(`rtdetr_criterion.py:413-500`): main stage, one stage per auxiliary
output, then (when denoising metadata is present) the denoising main
stage and one stage per denoising auxiliary output.  Matching,
normalization and the numeric loss computations are abstracted into the
per-stage `getLoss` functions; each auxiliary stage carries its
`'pred_masks' in outputs` flag. -/
def forwardLosses (lossNames : List String) (wd : WeightDict)
    (mainLoss : String → LossDict)
    (auxStages : List (Bool × (String → LossDict)))
    (dnStages : Option ((Bool × (String → LossDict)) × List (Bool × (String → LossDict)))) :
    LossDict :=
  let l0 := stageLoop lossNames wd mainLoss true "" []
  let l1 := auxStages.enum.foldl
    (fun acc st => stageLoop lossNames wd st.2.2 st.2.1 ("_aux_" ++ toString st.1) acc) l0
  match dnStages with
  | none => l1
  | some (dnMain, dnAuxs) =>
      let l2 := stageLoop lossNames wd dnMain.2 dnMain.1 "_dn" l1
      dnAuxs.enum.foldl
        (fun acc st => stageLoop lossNames wd st.2.2 st.2.1 ("_dn_" ++ toString st.1) acc) l2

/-! ### Denoising index adapter: `get_cdn_matched_indices` -/

/-- `torch.arange(n).tile(g)` / `arange(n).unsqueeze(0).repeat(g,1).flatten()`:
the sequence `0,…,n-1` concatenated `g` times. -/
def tileRange (n g : ℕ) : List ℕ :=
  (List.replicate g (List.range n)).flatten

/-- Legacy (original RT-DETR) branch of
`RTDETRCriterion.get_cdn_matched_indices` (`rtdetr_criterion.py:532-548`).
Arguments: `dn_positive_idx` (per-image positive prediction indices),
`dn_num_group`, and each image's ground-truth count `len(t['labels'])`.
`none` embeds the fatal `assert len(dn_positive_idx[i]) == len(gt_idx)`. -/
def cdnMatchedIndicesLegacy (dnPositiveIdx : List (List ℕ)) (dnNumGroup : ℕ)
    (numGts : List ℕ) : Option (List (List ℕ × List ℕ)) :=
  numGts.enum.mapM (fun p =>
    if 0 < p.2 then
      if (dnPositiveIdx.getD p.1 []).length = (tileRange p.2 dnNumGroup).length then
        some (dnPositiveIdx.getD p.1 [], tileRange p.2 dnNumGroup)
      else none
    else
      some ([], []))

/-- Map-known-indice (MaskDINO style) branch of
`RTDETRCriterion.get_cdn_matched_indices` (`rtdetr_criterion.py:506-530`).
`none` embeds the fatal `assert pad_size % scalar == 0`.  Per image with
`n > 0` ground truths: `t = arange(n).unsqueeze(0).repeat(scalar, 1)`,
target indices `t.flatten()`, prediction indices
`((arange(scalar) * single_pad).unsqueeze(1) + t).flatten()`. -/
def cdnMatchedIndicesMap (scalar padSize : ℕ) (numGts : List ℕ) :
    Option (List (List ℕ × List ℕ)) :=
  if padSize % scalar = 0 then
    let singlePad := padSize / scalar
    some (numGts.map (fun n =>
      if 0 < n then
        (((List.range scalar).map (fun g => (List.range n).map (fun j => g * singlePad + j))).flatten,
         tileRange n scalar)
      else ([], [])))
  else none

/-! ### Point sampler: bilinear grid sampling over `ℚ`

`point_sample` wraps `F.grid_sample(..., align_corners=False)` whose
default `padding_mode` is `'zeros'`.  A single channel map is a `H × W`
list of lists; a batch element is a list of channel maps; coordinates
are `(x, y)` pairs. -/

/-- Zero-padded pixel read (`padding_mode='zeros'`): indices outside
`[0,H) × [0,W)` read as `0`. -/
def getPix (m : List (List ℚ)) (y x : ℤ) : ℚ :=
  if 0 ≤ y ∧ 0 ≤ x then (m.getD y.toNat []).getD x.toNat 0 else 0

/-- One bilinear `F.grid_sample` read of a single-channel map `m` at
grid coordinates `(gx, gy) ∈ [-1,1]²` with `align_corners=False`:
unnormalize `ix = ((gx+1)*W - 1)/2`, `iy = ((gy+1)*H - 1)/2`, then
blend the four surrounding pixels with bilinear weights, reading
out-of-bounds pixels as `0`. -/
def gridSample1 (m : List (List ℚ)) (gx gy : ℚ) : ℚ :=
  let W : ℚ := (m.headD []).length
  let H : ℚ := m.length
  let ix := ((gx + 1) * W - 1) / 2
  let iy := ((gy + 1) * H - 1) / 2
  let x0 := ⌊ix⌋
  let y0 := ⌊iy⌋
  let dx := ix - x0
  let dy := iy - y0
  (1 - dx) * (1 - dy) * getPix m y0 x0 + dx * (1 - dy) * getPix m y0 (x0 + 1) +
    (1 - dx) * dy * getPix m (y0 + 1) x0 + dx * dy * getPix m (y0 + 1) (x0 + 1)

/-- `F.grid_sample` on a batch of multi-channel maps at a per-batch
flat list of `P` grid coordinates (the `(N, P, 2)` form `point_sample`
feeds it): output shape `(N, C, P)`. -/
def grid_sample (input : List (List (List (List ℚ)))) (grid : List (List (ℚ × ℚ))) :
    List (List (List ℚ)) :=
  (input.zip grid).map (fun bc =>
    bc.1.map (fun m => bc.2.map (fun c => gridSample1 m c.1 c.2)))

/-- `point_sample` (`rtdetr_criterion.py:25-51`):
`F.grid_sample(input, 2.0 * point_coords - 1.0, **kwargs)` — grid
sampling at coordinates affinely rescaled from `[0,1]²` to `[-1,1]²`
(the `(N, P, 2)` flat-list form, whose singleton grid dimension the
source adds and squeezes away again). -/
def point_sample (input : List (List (List (List ℚ)))) (coords : List (List (ℚ × ℚ))) :
    List (List (List ℚ)) :=
  grid_sample input (coords.map (fun pts => pts.map (fun c => (2 * c.1 - 1, 2 * c.2 - 1))))

/-! ### Adaptive point coordinate generation -/

/-- Comparison used to order candidate points by decreasing
uncertainty (the order `torch.topk(..., largest=True, sorted=True)`
returns); ties are broken deterministically. -/
def uncertGE (a b : ℕ × ℚ) : Prop := b.2 ≤ a.2

instance : DecidableRel uncertGE :=
  fun a b => inferInstanceAs (Decidable (b.2 ≤ a.2))

instance : IsTotal (ℕ × ℚ) uncertGE where
  total a b := le_total b.2 a.2

instance : IsTrans (ℕ × ℚ) uncertGE where
  trans _ _ _ h1 h2 := le_trans h2 h1

/-- `torch.topk(row, k, dim=1)[1]` on one row: the indices of the `k`
largest entries, in order of decreasing value. -/
def topkIdx (row : List ℚ) (k : ℕ) : List ℕ :=
  (((row.enum).insertionSort uncertGE).take k).map Prod.fst

/-- `calculate_uncertainty` (`rtdetr_criterion.py:163-177`): the
negative absolute value of the single-channel logit, applied
pointwise. -/
def calculate_uncertainty (x : ℚ) : ℚ := -|x|

/-- `get_uncertain_point_coords_with_randomness`
(`rtdetr_criterion.py:53-113`).  The outcomes of the two `torch.rand`
draws are explicit arguments: `rand1` is the `N × int(P*r)` oversampled
candidate draw, `rand2` the `N × (P - int(f*P))` fresh draw; `u` is
`uncertainty_func` applied pointwise to the point-sampled logits.  The
gather mirrors the source's shift-and-flatten indexing
(`idx += num_sampled * arange(num_boxes)`;
`point_coords.view(-1, 2)[idx.view(-1)]`). -/
def get_uncertain_point_coords_with_randomness
    (coarse_logits : List (List (List (List ℚ)))) (u : ℚ → ℚ)
    (num_points : ℕ) (oversample_ratio importance_sample_ratio : ℚ)
    (rand1 rand2 : List (List (ℚ × ℚ))) : List (List (ℚ × ℚ)) :=
  let num_sampled := (⌊(num_points : ℚ) * oversample_ratio⌋).toNat
  let point_logits := point_sample coarse_logits rand1
  let point_uncertainties := point_logits.map (fun chans => (chans.headD []).map u)
  let num_uncertain_points := (⌊importance_sample_ratio * (num_points : ℚ)⌋).toNat
  let num_random_points := num_points - num_uncertain_points
  let flat := rand1.flatten
  let selected := point_uncertainties.enum.map (fun br =>
    (topkIdx br.2 num_uncertain_points).map (fun j => flat.getD (num_sampled * br.1 + j) (0, 0)))
  if 0 < num_random_points then (selected.zip rand2).map (fun p => p.1 ++ p.2)
  else selected

/-! ### Real-valued per-pair losses

These embed the source functions that apply transcendental operations
(`sigmoid`, `log`, `exp`, real powers), so they live over `ℝ`. -/

/-- `torch.sigmoid`. -/
noncomputable def sigmoid (x : ℝ) : ℝ := 1 / (1 + Real.exp (-x))

/-- `dice_loss` (`rtdetr_criterion.py:138-157`): per matched pair
(one row of sampled point logits `inputs` and binary point labels
`targets`), `1 - (2*intersection + 1)/(sum_pred + sum_target + 1)`
after `sigmoid`, summed over pairs and divided by `num_masks`. -/
noncomputable def dice_loss (inputs targets : List (List ℝ)) (num_masks : ℝ) : ℝ :=
  (((inputs.map (fun row => row.map sigmoid)).zip targets).map
      (fun p => 1 - (2 * (List.zipWith (· * ·) p.1 p.2).sum + 1) /
        (p.1.sum + p.2.sum + 1))).sum / num_masks

/-- `accuracy` (`rtdetr_criterion.py:554-570`) as invoked with
`topk=(1,)`: zero on an empty target, otherwise the percentage of rows
whose top-1 prediction (`output.topk(1, 1, True, True)[1]`, i.e. the
arg-max, earliest index on ties) equals the target
(`correct_k * (100.0 / batch_size)`). -/
noncomputable def argmaxIdx (l : List ℝ) : ℕ :=
  (l.enum.foldl (fun best p => if best.2 < p.2 then p else best) (0, l.headD 0)).1

noncomputable def accuracy (output : List (List ℝ)) (target : List ℕ) : ℝ :=
  if target.isEmpty then 0
  else ((((output.map argmaxIdx).zip target).countP (fun p => p.1 == p.2) : ℕ) : ℝ) *
    (100 / (target.length : ℝ))

/-- `torch.cat([t['labels'][J] for t, (_, J) in zip(targets, indices)])`:
the matched ground-truth class labels, concatenated across images. -/
def matchedTargets (labels : List (List ℕ)) (indices : List (List ℕ × List ℕ)) :
    List ℕ :=
  ((labels.zip indices).map (fun p => p.2.2.map (fun j => p.1.getD j 0))).flatten

/-- `src_logits[idx]` where `idx = self._get_src_permutation_idx(indices)`:
the matched prediction logit rows, concatenated across images. -/
def matchedLogits (src_logits : List (List (List ℝ)))
    (indices : List (List ℕ × List ℕ)) : List (List ℝ) :=
  ((src_logits.zip indices).map (fun p => p.2.1.map (fun i => p.1.getD i []))).flatten

/-- `target_classes = torch.full(src_logits.shape[:2], num_classes);
target_classes[idx] = target_classes_o`: per image, slot `n` holds the
matched label scattered through the permutation index (last write wins,
as in the tensor assignment) and `num_classes` (the no-object class)
elsewhere. -/
def targetClasses (num_classes : ℕ) (src_logits : List (List (List ℝ)))
    (labels : List (List ℕ)) (indices : List (List ℕ × List ℕ)) :
    List (List ℕ) :=
  (src_logits.zip (labels.zip indices)).map (fun bi =>
    (List.range bi.1.length).map (fun n =>
      match ((bi.2.2.1.zip (bi.2.2.2.map (fun j => bi.2.1.getD j 0))).reverse.find?
          (fun p => p.1 == n)) with
      | some p => p.2
      | none => num_classes))

/-- `self.empty_weight`: per-class cross-entropy weights, `1`
everywhere with `eos_coef` in the final (no-object) slot. -/
def empty_weight (num_classes : ℕ) (eos_coef : ℝ) : List ℝ :=
  List.replicate num_classes 1 ++ [eos_coef]

/-- `F.cross_entropy(src_logits.transpose(1, 2), target_classes,
self.empty_weight)`: class-weighted negative-log-softmax, averaged with
the weighted mean over all `(image, slot)` pairs. -/
noncomputable def cross_entropy (logits : List (List (List ℝ)))
    (tcls : List (List ℕ)) (w : List ℝ) : ℝ :=
  ((((logits.zip tcls).flatMap (fun p => p.1.zip p.2)).map
      (fun q => w.getD q.2 0 *
        (-Real.log (Real.exp (q.1.getD q.2 0) / (q.1.map Real.exp).sum)))).sum) /
    (((logits.zip tcls).flatMap (fun p => p.1.zip p.2)).map
      (fun q => w.getD q.2 0)).sum

/-- `RTDETRCriterion.loss_labels` (`rtdetr_criterion.py:272-291`):
returns `loss_ce` and, when `log` is set, the diagnostic
`class_error = 100 - accuracy(src_logits[idx], target_classes_o)[0]`. -/
noncomputable def loss_labels (num_classes : ℕ) (eos_coef : ℝ)
    (src_logits : List (List (List ℝ))) (labels : List (List ℕ))
    (indices : List (List ℕ × List ℕ)) (log : Bool) : List (String × ℝ) :=
  if log then
    [("loss_ce", cross_entropy src_logits
        (targetClasses num_classes src_logits labels indices)
        (empty_weight num_classes eos_coef)),
     ("class_error", 100 - accuracy (matchedLogits src_logits indices)
        (matchedTargets labels indices))]
  else
    [("loss_ce", cross_entropy src_logits
        (targetClasses num_classes src_logits labels indices)
        (empty_weight num_classes eos_coef))]

/-- `F.one_hot(target_classes, num_classes+1)[..., :-1]`: one-hot rows
over the real classes; the no-object class maps to the all-zero row. -/
noncomputable def oneHotDrop (num_classes : ℕ) (tc : List (List ℕ)) :
    List (List (List ℝ)) :=
  tc.map (fun row => row.map (fun y =>
    (List.range num_classes).map (fun c => if y = c then (1 : ℝ) else 0)))

/-- Elementwise `torchvision.ops.sigmoid_focal_loss` (the `alpha ≥ 0`
branch the criterion exercises, `reduction='none'`):
`alpha_t * ce_loss * (1 - p_t) ** gamma` with
`ce = binary_cross_entropy_with_logits`, `p_t = p*t + (1-p)*(1-t)`. -/
noncomputable def sigmoid_focal_loss (alpha gamma x t : ℝ) : ℝ :=
  (alpha * t + (1 - alpha) * (1 - t)) *
    (-(t * Real.log (sigmoid x) + (1 - t) * Real.log (1 - sigmoid x)) *
      (1 - (sigmoid x * t + (1 - sigmoid x) * (1 - t))) ^ gamma)

/-- Column-wise sum of the rows of an `N × C` matrix (clipped to `C`
columns). -/
def vecSumC (C : ℕ) (rows : List (List ℝ)) : List ℝ :=
  rows.foldr (fun r acc => List.zipWith (· + ·) r acc) (List.replicate C 0)

/-- `loss.mean(1)` on a `(B, N, C)` tensor: per image, the column-wise
mean over the `N` prediction slots. -/
noncomputable def meanDim1 (t : List (List (List ℝ))) : List (List ℝ) :=
  t.map (fun img =>
    (vecSumC (img.headD []).length img).map (fun s => s / (img.length : ℝ)))

/-- `RTDETRCriterion.loss_labels_focal` (`rtdetr_criterion.py:293-307`):
elementwise sigmoid focal loss against the dropped-column one-hot
targets, reduced by `loss.mean(1).sum() * src_logits.shape[1] /
num_boxes`. -/
noncomputable def loss_labels_focal (num_classes : ℕ) (alpha gamma : ℝ)
    (src_logits : List (List (List ℝ))) (labels : List (List ℕ))
    (indices : List (List ℕ × List ℕ)) (num_boxes : ℝ) : ℝ :=
  ((meanDim1 ((src_logits.zip
        (oneHotDrop num_classes (targetClasses num_classes src_logits labels indices))).map
      (fun p => (p.1.zip p.2).map
        (fun q => List.zipWith (fun x t => sigmoid_focal_loss alpha gamma x t) q.1 q.2)))).map
    List.sum).sum * ((src_logits.headD []).length : ℝ) / num_boxes

/-- Modelled from the spec's words, for comparison with
`loss_labels_focal`: the same elementwise focal tensor, but "reduced by
averaging over classes, summing over predictions, then rescaling by
(num_predictions_per_image / normalizer)". -/
noncomputable def specFocalReduction (num_classes : ℕ) (alpha gamma : ℝ)
    (src_logits : List (List (List ℝ))) (labels : List (List ℕ))
    (indices : List (List ℕ × List ℕ)) (num_boxes : ℝ) : ℝ :=
  (((src_logits.zip
        (oneHotDrop num_classes (targetClasses num_classes src_logits labels indices))).map
      (fun p => (p.1.zip p.2).map
        (fun q => List.zipWith (fun x t => sigmoid_focal_loss alpha gamma x t) q.1 q.2))).map
    (fun img => (img.map (fun row => row.sum / (row.length : ℝ))).sum)).sum *
    ((src_logits.headD []).length : ℝ) / num_boxes

/- ===================== THEOREMS ===================== -/

/-! ### Orchestrator lemmas -/

theorem String.append_cancel_right {a b c : String} (h : a ++ c = b ++ c) : a = b := by
  have hd : a.data ++ c.data = b.data ++ c.data := by
    have := congrArg String.data h
    simpa [String.data_append] using this
  exact String.ext (List.append_cancel_right hd)

/-- Every key produced by one stage's post-processing is a weight-table
key with the stage suffix appended. -/
theorem mem_keys_processStage {wd : WeightDict} {ld : LossDict} {sfx k}
    (hk : k ∈ dictKeys (processStage wd ld sfx)) :
    ∃ k0, (List.lookup k0 wd).isSome ∧ k = k0 ++ sfx := by
  simp only [processStage, weightFilter, dictKeys, List.map_map, List.mem_map,
    Function.comp_apply] at hk
  obtain ⟨e, he, hke⟩ := hk
  rw [List.mem_filterMap] at he
  obtain ⟨a, _, ha⟩ := he
  rcases hw : List.lookup a.1 wd with _ | w
  · rw [hw] at ha; simp at ha
  · rw [hw] at ha
    simp only [Option.map_some', Option.some_inj] at ha
    refine ⟨a.1, by simp [hw], ?_⟩
    rw [← hke, ← ha]

/-- Keys after a Python dict `update` come from one side or the other. -/
theorem mem_keys_dictUpdate {m l : LossDict} {k}
    (hk : k ∈ dictKeys (dictUpdate m l)) : k ∈ dictKeys m ∨ k ∈ dictKeys l := by
  unfold dictUpdate dictKeys at hk
  unfold dictKeys
  rw [List.map_append, List.mem_append] at hk
  rcases hk with h | h
  · left
    rw [List.mem_map] at h ⊢
    obtain ⟨e, he, hek⟩ := h
    exact ⟨e, (List.mem_filter.mp he).1, hek⟩
  · right; exact h

/-- A `foldl` preserves any invariant its step preserves. -/
theorem foldl_preserve {α β : Type} (P : β → Prop) (step : β → α → β)
    (hstep : ∀ acc a, P acc → P (step acc a)) :
    ∀ (l : List α) (acc : β), P acc → P (l.foldl step acc) := by
  intro l
  induction l with
  | nil => intro acc h; exact h
  | cons a l ih => intro acc h; exact ih (step acc a) (hstep acc a h)

/-- The key shape invariant is preserved by one `for loss in self.losses`
stage loop. -/
theorem stageLoop_keys {lossNames : List String} {wd : WeightDict}
    {getLoss : String → LossDict} {hasMasks : Bool} {sfx : String} {acc : LossDict}
    (hacc : ∀ k ∈ dictKeys acc, ∃ k0 s, (List.lookup k0 wd).isSome ∧ k = k0 ++ s) :
    ∀ k ∈ dictKeys (stageLoop lossNames wd getLoss hasMasks sfx acc),
      ∃ k0 s, (List.lookup k0 wd).isSome ∧ k = k0 ++ s := by
  unfold stageLoop
  refine foldl_preserve (fun d => ∀ k ∈ dictKeys d, ∃ k0 s, (List.lookup k0 wd).isSome ∧ k = k0 ++ s)
    _ ?_ lossNames acc hacc
  intro d name hd k hk
  by_cases hskip : name = "masks" ∧ hasMasks = false
  · rw [if_pos hskip] at hk; exact hd k hk
  · rw [if_neg hskip] at hk
    rcases mem_keys_dictUpdate hk with h | h
    · exact hd k h
    · obtain ⟨k0, hw, hks⟩ := mem_keys_processStage h
      exact ⟨k0, sfx, hw, hks⟩

/-- C8. For every requested-loss list and weight table, a loss name
computed by any stage but absent from the weight table is dropped by
that stage's filtering (its suffixed key does not appear in the stage's
contribution), and every key of the final mapping returned by `forward`
is a weight-table key with a stage suffix appended; the filtering is a
total function, so it raises no error. -/
theorem forward_drops_unweighted_losses
    (lossNames : List String) (wd : WeightDict) (mainLoss : String → LossDict)
    (auxStages : List (Bool × (String → LossDict)))
    (dnStages : Option ((Bool × (String → LossDict)) × List (Bool × (String → LossDict))))
    (n : String) (ld : LossDict) (sfx : String)
    (hn : List.lookup n wd = none) :
    (n ++ sfx) ∉ dictKeys (processStage wd ld sfx) ∧
    ∀ k ∈ dictKeys (forwardLosses lossNames wd mainLoss auxStages dnStages),
      ∃ k0 s, (List.lookup k0 wd).isSome ∧ k = k0 ++ s := by
  constructor
  · intro hmem
    obtain ⟨k0, hw, hks⟩ := mem_keys_processStage hmem
    have hk0 : k0 = n := String.append_cancel_right hks.symm
    rw [hk0, hn] at hw
    simp at hw
  · unfold forwardLosses
    have hmain : ∀ k ∈ dictKeys (stageLoop lossNames wd mainLoss true "" []),
        ∃ k0 s, (List.lookup k0 wd).isSome ∧ k = k0 ++ s :=
      stageLoop_keys (by intro k hk; simp [dictKeys] at hk)
    have haux : ∀ k ∈ dictKeys (auxStages.enum.foldl
        (fun acc st => stageLoop lossNames wd st.2.2 st.2.1 ("_aux_" ++ toString st.1) acc)
        (stageLoop lossNames wd mainLoss true "" [])),
        ∃ k0 s, (List.lookup k0 wd).isSome ∧ k = k0 ++ s := by
      refine foldl_preserve
        (fun d => ∀ k ∈ dictKeys d, ∃ k0 s, (List.lookup k0 wd).isSome ∧ k = k0 ++ s)
        _ ?_ auxStages.enum _ hmain
      intro acc st hacc
      exact stageLoop_keys hacc
    rcases dnStages with _ | ⟨dnMain, dnAuxs⟩
    · simpa using haux
    · simp only []
      refine foldl_preserve
        (fun d => ∀ k ∈ dictKeys d, ∃ k0 s, (List.lookup k0 wd).isSome ∧ k = k0 ++ s)
        _ ?_ dnAuxs.enum _ (stageLoop_keys haux)
      intro acc st hacc
      exact stageLoop_keys hacc

/-- C1 (as stated, refuted). With weight table `{'loss_ce': 2}` and a
classification loss that computes to NaN, the final aggregated mapping
holds `40 = weight * (10 * weight)` under `'loss_ce'`, not the sentinel
magnitude `10 * weight = 20` the claim asserts, because the weight
multiplication of line 428 applies on top of the already-substituted
sentinel of line 427. -/
theorem nonfinite_sentinel_counterexample :
    List.lookup "loss_ce"
      (forwardLosses ["labels"] [("loss_ce", 2)]
        (fun _ => [("loss_ce", Val.nan)]) [] none) = some (Val.fin 40) ∧
    (40 : ℚ) ≠ 10 * 2 := by
  constructor
  · simp [forwardLosses, stageLoop, processStage, weightFilter, stabilizeEntry, dictUpdate,
      Val.isFinite, Val.nanToNum, Val.mulWeight, List.lookup]
    norm_num
  · norm_num

/-- C1 (amended). For a loss key `k` carrying weight `w > 0`, a
non-finite computed value is replaced by the signed sentinel of
magnitude `10 * w` (negative for `-inf`, positive for NaN and `+inf`),
and the stage's contribution to the final aggregated mapping then
carries the finite value `(10 * w) * w` (sign-preserved); every entry a
stage contributes is finite. -/
theorem nonfinite_sentinel_stabilization {wd : WeightDict} {ld : LossDict}
    {sfx k : String} {v : Val} {w : ℚ}
    (hw : List.lookup k wd = some w) (hv : (k, v) ∈ ld) :
    (v = Val.nan ∨ v = Val.pinf →
      stabilizeEntry wd (k, v) = (k, Val.fin (10 * w)) ∧
      (k ++ sfx, Val.fin (10 * w * w)) ∈ processStage wd ld sfx) ∧
    (v = Val.ninf →
      stabilizeEntry wd (k, v) = (k, Val.fin (-(10 * w))) ∧
      (k ++ sfx, Val.fin (-(10 * w) * w)) ∈ processStage wd ld sfx) ∧
    (∀ e ∈ processStage wd ld sfx, e.2.isFinite = true) := by
  have hmem : ∀ u : Val, stabilizeEntry wd (k, v) = (k, u) →
      (k ++ sfx, u.mulWeight w) ∈ processStage wd ld sfx := by
    intro u hu
    unfold processStage weightFilter
    rw [List.mem_map]
    refine ⟨(k, u.mulWeight w), ?_, rfl⟩
    rw [List.mem_filterMap]
    refine ⟨(k, u), ?_, ?_⟩
    · rw [List.mem_map]; exact ⟨(k, v), hv, hu⟩
    · simp [hw]
  refine ⟨?_, ?_, ?_⟩
  · rintro (rfl | rfl) <;>
      refine ⟨by simp [stabilizeEntry, Val.isFinite, Val.nanToNum, hw], ?_⟩ <;>
      · have := hmem (Val.fin (10 * w))
          (by simp [stabilizeEntry, Val.isFinite, Val.nanToNum, hw])
        simpa [Val.mulWeight] using this
  · rintro rfl
    refine ⟨by simp [stabilizeEntry, Val.isFinite, Val.nanToNum, hw], ?_⟩
    have := hmem (Val.fin (-(10 * w)))
      (by simp [stabilizeEntry, Val.isFinite, Val.nanToNum, hw])
    simpa [Val.mulWeight] using this
  · intro e he
    unfold processStage weightFilter at he
    rw [List.mem_map] at he
    obtain ⟨e', he', rfl⟩ := he
    rw [List.mem_filterMap] at he'
    obtain ⟨a, ha, ha'⟩ := he'
    rcases hl : List.lookup a.1 wd with _ | w'
    · rw [hl] at ha'; simp at ha'
    · rw [hl] at ha'
      simp only [Option.map_some', Option.some_inj] at ha'
      rw [List.mem_map] at ha
      obtain ⟨b, _, hb⟩ := ha
      have hfin : a.2.isFinite = true := by
        rw [← hb]
        unfold stabilizeEntry
        rcases hbf : b.2.isFinite with _ | _
        · rcases b2 : b.2 with q | _ | _ | _ <;>
            simp [b2, Val.isFinite, Val.nanToNum] at hbf ⊢
        · simp [hbf]
      rw [← ha']
      rcases a2 : a.2 with q | _ | _ | _ <;> simp [a2, Val.isFinite, Val.mulWeight] at hfin ⊢

/-- C10. When a non-finite loss value occurs under a key with no entry
in the weight table, the repair uses the default weight `1.0`
(`self.weight_dict.get(k, 1.0)`), i.e. a sentinel of magnitude `10.0`,
instead of failing, and the repaired entry is still excluded from the
stage's contribution to the final aggregated mapping by the weight-table
filtering. -/
theorem nonfinite_unweighted_default_sentinel {wd : WeightDict} {ld : LossDict}
    {sfx k : String} {v : Val}
    (hk : List.lookup k wd = none) (hv : v.isFinite = false) :
    stabilizeEntry wd (k, v) = (k, v.nanToNum 10) ∧
    (v.nanToNum 10).isFinite = true ∧
    (k ++ sfx) ∉ dictKeys (processStage wd ld sfx) := by
  refine ⟨?_, ?_, ?_⟩
  · unfold stabilizeEntry
    simp only [hv, Bool.false_eq_true, if_false, hk, Option.getD_none]
    norm_num
  · rcases v with q | _ | _ | _ <;> simp [Val.isFinite, Val.nanToNum] at hv ⊢
  · intro hmem
    obtain ⟨k0, hw, hks⟩ := mem_keys_processStage hmem
    have hk0 : k0 = k := String.append_cancel_right hks.symm
    rw [hk0, hk] at hw
    simp at hw

/-- Witness for C8 at a concrete configuration. -/
theorem forward_drops_unweighted_losses_witness :
    ("class_error" ++ "") ∉
      dictKeys (processStage [("loss_ce", 2)] [("class_error", Val.fin 100)] "") ∧
    ∀ k ∈ dictKeys (forwardLosses ["labels"] [("loss_ce", 2)]
        (fun _ => [("loss_ce", Val.fin 1), ("class_error", Val.fin 100)]) [] none),
      ∃ k0 s, (List.lookup k0 [("loss_ce", (2 : ℚ))]).isSome ∧ k = k0 ++ s :=
  forward_drops_unweighted_losses ["labels"] [("loss_ce", 2)]
    (fun _ => [("loss_ce", Val.fin 1), ("class_error", Val.fin 100)]) [] none
    "class_error" [("class_error", Val.fin 100)] "" (by decide)

/-- Witness for the amended C1 at a concrete configuration. -/
theorem nonfinite_sentinel_stabilization_witness :
    (Val.nan = Val.nan ∨ Val.nan = Val.pinf →
      stabilizeEntry [("loss_ce", 2)] ("loss_ce", Val.nan) = ("loss_ce", Val.fin (10 * 2)) ∧
      ("loss_ce" ++ "", Val.fin (10 * 2 * 2)) ∈
        processStage [("loss_ce", 2)] [("loss_ce", Val.nan)] "") ∧
    (Val.nan = Val.ninf →
      stabilizeEntry [("loss_ce", 2)] ("loss_ce", Val.nan) = ("loss_ce", Val.fin (-(10 * 2))) ∧
      ("loss_ce" ++ "", Val.fin (-(10 * 2) * 2)) ∈
        processStage [("loss_ce", 2)] [("loss_ce", Val.nan)] "") ∧
    (∀ e ∈ processStage [("loss_ce", 2)] [("loss_ce", Val.nan)] "", e.2.isFinite = true) :=
  nonfinite_sentinel_stabilization (by decide) (by decide)

/-- Witness for C10 at a concrete configuration. -/
theorem nonfinite_unweighted_default_sentinel_witness :
    stabilizeEntry [("loss_ce", 2)] ("class_error", Val.nan) =
      ("class_error", Val.nan.nanToNum 10) ∧
    (Val.nan.nanToNum 10).isFinite = true ∧
    ("class_error" ++ "") ∉
      dictKeys (processStage [("loss_ce", 2)] [("class_error", Val.nan)] "") :=
  nonfinite_unweighted_default_sentinel (by decide) (by decide)

/-! ### Denoising index adapter lemmas -/

theorem mapM_eq_some_map {α β : Type} (f : α → Option β) (g : α → β) :
    ∀ l : List α, (∀ x ∈ l, f x = some (g x)) → l.mapM f = some (l.map g) := by
  intro l
  induction l with
  | nil => intro _; rfl
  | cons a l ih =>
      intro h
      rw [List.mapM_cons, h a (by simp), ih (fun x hx => h x (by simp [hx]))]
      rfl

theorem tileRange_length (n g : ℕ) : (tileRange n g).length = g * n := by
  unfold tileRange
  rw [List.length_flatten, List.map_replicate, List.length_range, List.sum_replicate,
    smul_eq_mul]

/-- Position `g * n + j` of the flattening of a list of blocks of
uniform length `n` is position `j` of block `g`. -/
theorem flatten_getD_uniform {α : Type} (d : α) (n : ℕ) :
    ∀ (l : List (List α)) (g j : ℕ), (∀ x ∈ l, x.length = n) → g < l.length → j < n →
      l.flatten.getD (g * n + j) d = (l.getD g []).getD j d := by
  intro l
  induction l with
  | nil => intro g j _ hg _; simp at hg
  | cons x xs ih =>
      intro g j hlen hg hj
      match g with
      | 0 =>
          simp only [List.flatten_cons, Nat.zero_mul, Nat.zero_add]
          rw [List.getD_append]
          · rfl
          · rw [hlen x (by simp)]; exact hj
      | g + 1 =>
          simp only [List.flatten_cons]
          rw [List.getD_append_right]
          · have hx : x.length = n := hlen x (by simp)
            have harith : (g + 1) * n + j - x.length = g * n + j := by
              rw [hx]
              have : (g + 1) * n = g * n + n := by ring
              omega
            rw [harith, List.getD_cons_succ]
            exact ih g j (fun y hy => hlen y (by simp [hy])) (by simpa using hg) hj
          · rw [hlen x (by simp)]
            have : (g + 1) * n = g * n + n := by ring
            omega

theorem getD_map_range {β : Type} (f : ℕ → β) (d : β) (m i : ℕ) (h : i < m) :
    ((List.range m).map f).getD i d = f i := by
  rw [List.getD_eq_getElem _ _ (by simpa using h)]
  simp

/-- C6. Legacy denoising scheme: provided each image's positive-index
list has the length the source asserts (`G * num_gt`), the adapter
returns, for every image with `num_gt > 0` ground truths, the pair of
that image's positive prediction indices with `arange(num_gt)` tiled
`G` times, and the empty pair for every image with zero ground truths;
the tiling interleaves (`num_gt = 2`, `G = 3` gives
`[0,1,0,1,0,1]`). -/
theorem cdn_legacy_matched_indices (dnPositiveIdx : List (List ℕ)) (G : ℕ)
    (numGts : List ℕ)
    (h : ∀ p ∈ numGts.enum, 0 < p.2 → (dnPositiveIdx.getD p.1 []).length = G * p.2) :
    cdnMatchedIndicesLegacy dnPositiveIdx G numGts =
      some (numGts.enum.map (fun p =>
        if 0 < p.2 then (dnPositiveIdx.getD p.1 [], tileRange p.2 G) else ([], []))) ∧
    tileRange 2 3 = [0, 1, 0, 1, 0, 1] := by
  constructor
  · unfold cdnMatchedIndicesLegacy
    apply mapM_eq_some_map
    intro p hp
    by_cases hpos : 0 < p.2
    · have hlen : (dnPositiveIdx.getD p.1 []).length = (tileRange p.2 G).length := by
        rw [h p hp hpos, tileRange_length]
      rw [if_pos hpos, if_pos hlen, if_pos hpos]
    · simp [hpos]
  · decide

/-- Witness for C6: two images with 2 and 0 ground truths, 3 groups. -/
theorem cdn_legacy_matched_indices_witness :
    cdnMatchedIndicesLegacy [[4, 5, 6, 7, 8, 9], []] 3 [2, 0] =
      some (([2, 0] : List ℕ).enum.map (fun p =>
        if 0 < p.2 then ([[4, 5, 6, 7, 8, 9], []].getD p.1 [], tileRange p.2 3)
        else ([], []))) ∧
    tileRange 2 3 = [0, 1, 0, 1, 0, 1] :=
  cdn_legacy_matched_indices [[4, 5, 6, 7, 8, 9], []] 3 [2, 0] (by decide)

/-- C7. Map-known-indice denoising scheme: when `pad_size` is divisible
by `scalar` the adapter returns, per image with `n > 0` ground truths,
target indices `arange(n)` tiled `scalar` times and prediction indices
`g * single_pad + j` flattened across groups `g` (with `single_pad =
pad_size / scalar`), and empty pairs for zero-ground-truth images; when
divisibility fails the call is fatal (`none`).  The flattened lists have
length `scalar * n` and position `g * n + j` holds `g * single_pad + j`
resp. `j`. -/
theorem cdn_map_known_indices (scalar padSize : ℕ) (numGts : List ℕ) :
    (padSize % scalar = 0 →
      cdnMatchedIndicesMap scalar padSize numGts =
        some (numGts.map (fun n =>
          if 0 < n then
            (((List.range scalar).map
                (fun g => (List.range n).map (fun j => g * (padSize / scalar) + j))).flatten,
             tileRange n scalar)
          else ([], [])))) ∧
    (¬padSize % scalar = 0 → cdnMatchedIndicesMap scalar padSize numGts = none) ∧
    (∀ n g j : ℕ, g < scalar → j < n →
      ((List.range scalar).map
          (fun g => (List.range n).map (fun j => g * (padSize / scalar) + j))).flatten.getD
          (g * n + j) 0 = g * (padSize / scalar) + j ∧
      (tileRange n scalar).getD (g * n + j) 0 = j ∧
      (tileRange n scalar).length = scalar * n) := by
  refine ⟨?_, ?_, ?_⟩
  · intro h
    unfold cdnMatchedIndicesMap
    rw [if_pos h]
  · intro h
    unfold cdnMatchedIndicesMap
    rw [if_neg h]
  · intro n g j hg hj
    refine ⟨?_, ?_, tileRange_length n scalar⟩
    · have hmem : ∀ x ∈ (List.range scalar).map
          (fun g => (List.range n).map (fun j => g * (padSize / scalar) + j)),
          x.length = n := by
        intro x hx
        rw [List.mem_map] at hx
        obtain ⟨a, _, rfl⟩ := hx
        simp
      have hglen : g < ((List.range scalar).map
          (fun g => (List.range n).map (fun j => g * (padSize / scalar) + j))).length := by
        simpa using hg
      rw [flatten_getD_uniform 0 n _ g j hmem hglen hj,
        List.getD_eq_getElem _ _ hglen, List.getElem_map, List.getElem_range,
        getD_map_range _ _ _ _ hj]
    · have hmem : ∀ x ∈ List.replicate scalar (List.range n), x.length = n := by
        intro x hx
        rw [List.mem_replicate] at hx
        rw [hx.2, List.length_range]
      have hglen : g < (List.replicate scalar (List.range n)).length := by
        simpa using hg
      unfold tileRange
      rw [flatten_getD_uniform 0 n _ g j hmem hglen hj,
        List.getD_eq_getElem _ _ hglen, List.getElem_replicate,
        List.getD_eq_getElem _ _ (by simpa using hj), List.getElem_range]

/-- Witness for C7: `scalar = 3`, `pad_size = 6`, images with 2 and 0
ground truths. -/
theorem cdn_map_known_indices_witness :
    cdnMatchedIndicesMap 3 6 [2, 0] =
      some (([2, 0] : List ℕ).map (fun n =>
        if 0 < n then
          (((List.range 3).map
              (fun g => (List.range n).map (fun j => g * (6 / 3) + j))).flatten,
           tileRange n 3)
        else ([], []))) :=
  (cdn_map_known_indices 3 6 [2, 0]).1 (by decide)

/-! ### Point sampler lemmas -/

/-- An in-bounds pixel of a constant rectangular map reads the
constant. -/
theorem getPix_const {m : List (List ℚ)} {k : ℚ} {W H : ℕ}
    (hH : m.length = H) (hW : ∀ row ∈ m, row.length = W)
    (hk : ∀ row ∈ m, ∀ v ∈ row, v = k)
    {y x : ℤ} (hy0 : 0 ≤ y) (hyH : y < H) (hx0 : 0 ≤ x) (hxW : x < W) :
    getPix m y x = k := by
  unfold getPix
  rw [if_pos ⟨hy0, hx0⟩]
  have hyn : y.toNat < m.length := by omega
  rw [List.getD_eq_getElem _ _ hyn]
  have hrow : m[y.toNat] ∈ m := List.getElem_mem hyn
  have hxn : x.toNat < m[y.toNat].length := by rw [hW _ hrow]; omega
  rw [List.getD_eq_getElem _ _ hxn]
  exact hk _ hrow _ (List.getElem_mem hxn)

/-- Bilinear sampling of a constant rectangular map returns the
constant whenever the unnormalized sample point lies inside
`[0, W-1] × [0, H-1]` (the convex hull of the pixel centers). -/
theorem gridSample1_const {m : List (List ℚ)} {k : ℚ} {W H : ℕ}
    (hH : m.length = H) (hW : ∀ row ∈ m, row.length = W)
    (hk : ∀ row ∈ m, ∀ v ∈ row, v = k)
    (hH0 : 0 < H) (gx gy : ℚ)
    (hx1 : 0 ≤ ((gx + 1) * W - 1) / 2) (hx2 : ((gx + 1) * W - 1) / 2 ≤ (W : ℚ) - 1)
    (hy1 : 0 ≤ ((gy + 1) * H - 1) / 2) (hy2 : ((gy + 1) * H - 1) / 2 ≤ (H : ℚ) - 1) :
    gridSample1 m gx gy = k := by
  have hne : m ≠ [] := by
    intro h
    rw [h] at hH
    simp at hH
    omega
  have hhead : m.headD [] = m.head hne := by
    rcases m with _ | ⟨a, t⟩
    · exact absurd rfl hne
    · rfl
  have hheadW : (m.headD []).length = W := by
    rw [hhead]
    exact hW _ (List.head_mem hne)
  unfold gridSample1
  dsimp only
  rw [hheadW, hH]
  set ix : ℚ := ((gx + 1) * (W : ℚ) - 1) / 2 with hixdef
  set iy : ℚ := ((gy + 1) * (H : ℚ) - 1) / 2 with hiydef
  set x0 : ℤ := ⌊ix⌋ with hx0def
  set y0 : ℤ := ⌊iy⌋ with hy0def
  have hfx1 : (x0 : ℚ) ≤ ix := Int.floor_le ix
  have hfx2 : ix < x0 + 1 := Int.lt_floor_add_one ix
  have hfy1 : (y0 : ℚ) ≤ iy := Int.floor_le iy
  have hfy2 : iy < y0 + 1 := Int.lt_floor_add_one iy
  have hx0nn : 0 ≤ x0 := Int.le_floor.mpr (by exact_mod_cast hx1)
  have hy0nn : 0 ≤ y0 := Int.le_floor.mpr (by exact_mod_cast hy1)
  have hx0lt : x0 ≤ (W : ℤ) - 1 := by
    have h1 : ix ≤ (((W : ℤ) - 1 : ℤ) : ℚ) := by push_cast; exact hx2
    have h2 := Int.floor_le_floor h1
    rwa [Int.floor_intCast] at h2
  have hy0lt : y0 ≤ (H : ℤ) - 1 := by
    have h1 : iy ≤ (((H : ℤ) - 1 : ℤ) : ℚ) := by push_cast; exact hy2
    have h2 := Int.floor_le_floor h1
    rwa [Int.floor_intCast] at h2
  have hA : getPix m y0 x0 = k :=
    getPix_const hH hW hk hy0nn (by omega) hx0nn (by omega)
  have hxcase : x0 + 1 < (W : ℤ) ∨ ix - (x0 : ℚ) = 0 := by
    by_cases hc : x0 + 1 < (W : ℤ)
    · exact Or.inl hc
    · right
      have hx0eq : x0 = (W : ℤ) - 1 := by omega
      have hle : ix ≤ (x0 : ℚ) := by
        rw [hx0eq]
        push_cast
        linarith
      linarith
  have hycase : y0 + 1 < (H : ℤ) ∨ iy - (y0 : ℚ) = 0 := by
    by_cases hc : y0 + 1 < (H : ℤ)
    · exact Or.inl hc
    · right
      have hy0eq : y0 = (H : ℤ) - 1 := by omega
      have hle : iy ≤ (y0 : ℚ) := by
        rw [hy0eq]
        push_cast
        linarith
      linarith
  rcases hxcase with hxb | hdx0
  · have hB : getPix m y0 (x0 + 1) = k :=
      getPix_const hH hW hk hy0nn (by omega) (by omega) hxb
    rcases hycase with hyb | hdy0
    · have hC : getPix m (y0 + 1) x0 = k :=
        getPix_const hH hW hk (by omega) hyb hx0nn (by omega)
      have hD : getPix m (y0 + 1) (x0 + 1) = k :=
        getPix_const hH hW hk (by omega) hyb (by omega) hxb
      rw [hA, hB, hC, hD]
      ring
    · rw [hdy0, hA, hB]
      ring
  · rcases hycase with hyb | hdy0
    · have hC : getPix m (y0 + 1) x0 = k :=
        getPix_const hH hW hk (by omega) hyb hx0nn (by omega)
      rw [hdx0, hA, hC]
      ring
    · rw [hdx0, hdy0, hA]
      ring

/-- C4 (amended). `point_sample` equals grid-sampling at coordinates
affinely rescaled by `c ↦ 2c - 1` with `align_corners=False`
(unconditionally, by construction), and sampling a constant-valued
feature map returns that constant at every coordinate of the interior
box `[1/(2W), 1 - 1/(2W)] × [1/(2H), 1 - 1/(2H)]`; outside that box
(cf. the boundary counterexample) zero padding attenuates the value. -/
theorem point_sample_rescale_and_const (m : List (List ℚ)) (k cx cy : ℚ) (W H : ℕ)
    (hH : m.length = H) (hW : ∀ row ∈ m, row.length = W)
    (hk : ∀ row ∈ m, ∀ v ∈ row, v = k) (hW0 : 0 < W) (hH0 : 0 < H)
    (hcx1 : 1 / (2 * W) ≤ cx) (hcx2 : cx ≤ 1 - 1 / (2 * W))
    (hcy1 : 1 / (2 * H) ≤ cy) (hcy2 : cy ≤ 1 - 1 / (2 * H)) :
    (∀ input coords, point_sample input coords =
      grid_sample input
        (coords.map (fun pts => pts.map (fun c => (2 * c.1 - 1, 2 * c.2 - 1))))) ∧
    point_sample [[m]] [[(cx, cy)]] = [[[k]]] := by
  refine ⟨fun _ _ => rfl, ?_⟩
  have hWq : (0 : ℚ) < (W : ℚ) := by exact_mod_cast hW0
  have hHq : (0 : ℚ) < (H : ℚ) := by exact_mod_cast hH0
  have h2W : (0 : ℚ) < 2 * (W : ℚ) := by positivity
  have h2H : (0 : ℚ) < 2 * (H : ℚ) := by positivity
  have hcx1' : 1 ≤ cx * (2 * (W : ℚ)) := (div_le_iff₀ h2W).mp hcx1
  have hcx2' : 1 ≤ (1 - cx) * (2 * (W : ℚ)) :=
    (div_le_iff₀ h2W).mp (by linarith : 1 / (2 * (W : ℚ)) ≤ 1 - cx)
  have hcy1' : 1 ≤ cy * (2 * (H : ℚ)) := (div_le_iff₀ h2H).mp hcy1
  have hcy2' : 1 ≤ (1 - cy) * (2 * (H : ℚ)) :=
    (div_le_iff₀ h2H).mp (by linarith : 1 / (2 * (H : ℚ)) ≤ 1 - cy)
  have hgx1 : 0 ≤ ((2 * cx - 1 + 1) * (W : ℚ) - 1) / 2 := by
    apply div_nonneg _ (by norm_num)
    nlinarith
  have hgx2 : ((2 * cx - 1 + 1) * (W : ℚ) - 1) / 2 ≤ (W : ℚ) - 1 := by
    rw [div_le_iff₀ (by norm_num : (0 : ℚ) < 2)]
    nlinarith
  have hgy1 : 0 ≤ ((2 * cy - 1 + 1) * (H : ℚ) - 1) / 2 := by
    apply div_nonneg _ (by norm_num)
    nlinarith
  have hgy2 : ((2 * cy - 1 + 1) * (H : ℚ) - 1) / 2 ≤ (H : ℚ) - 1 := by
    rw [div_le_iff₀ (by norm_num : (0 : ℚ) < 2)]
    nlinarith
  have hval : gridSample1 m (2 * cx - 1) (2 * cy - 1) = k :=
    gridSample1_const hH hW hk hH0 _ _ hgx1 hgx2 hgy1 hgy2
  show [[[gridSample1 m (2 * cx - 1) (2 * cy - 1)]]] = [[[k]]]
  rw [hval]

/-- Witness for the amended C4: a constant 2×2 map sampled at the
center. -/
theorem point_sample_rescale_and_const_witness :
    (∀ input coords, point_sample input coords =
      grid_sample input
        (coords.map (fun pts => pts.map (fun c => (2 * c.1 - 1, 2 * c.2 - 1))))) ∧
    point_sample [[[[(5 : ℚ), 5], [5, 5]]]] [[((1 : ℚ)/2, (1 : ℚ)/2)]] = [[[(5 : ℚ)]]] :=
  point_sample_rescale_and_const [[(5 : ℚ), 5], [5, 5]] 5 (1/2) (1/2) 2 2
    rfl (by decide) (by decide) (by norm_num) (by norm_num)
    (by norm_num) (by norm_num) (by norm_num) (by norm_num)

/-- C4 (as stated, refuted at the boundary). Sampling the constant-1
`1×1` feature map at the corner coordinate `(0,0)` returns `1/4`, not
`1`: with `align_corners=False` the unnormalized sample point is
`(-1/2, -1/2)` and three of the four bilinear taps read zero padding. -/
theorem point_sample_boundary_counterexample :
    point_sample [[[[(1 : ℚ)]]]] [[((0 : ℚ), (0 : ℚ))]] = [[[(1 : ℚ)/4]]] ∧
    (1 : ℚ)/4 ≠ 1 := by
  constructor
  · show [[[gridSample1 [[(1 : ℚ)]] (2 * 0 - 1) (2 * 0 - 1)]]] = [[[(1 : ℚ)/4]]]
    unfold gridSample1
    dsimp only
    norm_num
    unfold getPix
    norm_num [List.getD_cons_zero]
  · norm_num

/-! ### Top-k lemmas -/

theorem getD_mem {α : Type} (l : List α) (i : ℕ) (d : α) (h : i < l.length) :
    l.getD i d ∈ l := by
  rw [List.getD_eq_getElem _ _ h]
  exact List.getElem_mem h

/-- Every index returned by `topkIdx` indexes into the row. -/
theorem topkIdx_mem_lt (row : List ℚ) (k : ℕ) :
    ∀ i ∈ topkIdx row k, i < row.length := by
  intro i hi
  unfold topkIdx at hi
  rw [List.mem_map] at hi
  obtain ⟨a, ha, rfl⟩ := hi
  have has : a ∈ (row.enum).insertionSort uncertGE := List.mem_of_mem_take ha
  have hae : a ∈ row.enum := (List.perm_insertionSort uncertGE row.enum).mem_iff.mp has
  rcases a with ⟨i, q⟩
  exact (List.mem_enum hae).1

/-- `topkIdx` returns exactly `k` indices when the row is long enough. -/
theorem topkIdx_length (row : List ℚ) (k : ℕ) (h : k ≤ row.length) :
    (topkIdx row k).length = k := by
  unfold topkIdx
  rw [List.length_map, List.length_take,
    (List.perm_insertionSort uncertGE row.enum).length_eq, List.enum_length]
  omega

/-- `topkIdx` selects (a set of positions of) the `k` largest values:
any unselected position holds a value no larger than any selected
one. -/
theorem topkIdx_maximal (row : List ℚ) (k : ℕ) :
    ∀ i ∈ topkIdx row k, ∀ j < row.length, j ∉ topkIdx row k →
      row.getD j 0 ≤ row.getD i 0 := by
  intro i hi j hj hjn
  have hperm : ((row.enum).insertionSort uncertGE).Perm row.enum :=
    List.perm_insertionSort uncertGE row.enum
  have hsorted : List.Pairwise uncertGE ((row.enum).insertionSort uncertGE) :=
    List.sorted_insertionSort uncertGE row.enum
  have hjmem : (j, row[j]) ∈ row.enum := by
    have hjl : j < row.enum.length := by rwa [List.enum_length]
    have := List.getElem_mem hjl
    rwa [List.getElem_enum] at this
  have hjs : (j, row[j]) ∈ (row.enum).insertionSort uncertGE := hperm.mem_iff.mpr hjmem
  rw [← List.take_append_drop k ((row.enum).insertionSort uncertGE), List.mem_append] at hjs
  have hjdrop : (j, row[j]) ∈ ((row.enum).insertionSort uncertGE).drop k := by
    rcases hjs with h | h
    · exact absurd (List.mem_map.mpr ⟨(j, row[j]), h, rfl⟩) hjn
    · exact h
  unfold topkIdx at hi
  rw [List.mem_map] at hi
  obtain ⟨a, hatake, ha1⟩ := hi
  have hcross : uncertGE a (j, row[j]) := by
    rw [← List.take_append_drop k ((row.enum).insertionSort uncertGE),
      List.pairwise_append] at hsorted
    exact hsorted.2.2 a hatake _ hjdrop
  have hamem : a ∈ row.enum :=
    hperm.mem_iff.mp (List.mem_of_mem_take hatake)
  rcases a with ⟨i', q⟩
  obtain ⟨hi'len, hq⟩ := List.mem_enum hamem
  cases ha1
  rw [List.getD_eq_getElem _ _ hj, List.getD_eq_getElem _ _ hi'len]
  rw [hq] at hcross
  exact hcross

/-- Core gather computation of
`get_uncertain_point_coords_with_randomness`: row `b` of the result is
the top-`int(f*P)` selection (by uncertainty of the point-sampled
logits) out of box `b`'s oversampled candidates, followed by box `b`'s
fresh random draw; also the result has one row per box and the
uncertainty row of box `b` has one entry per oversampled candidate. -/
theorem guc_row_eq
    (coarse_logits : List (List (List (List ℚ)))) (u : ℚ → ℚ) (num_points : ℕ)
    (r f : ℚ) (rand1 rand2 : List (List (ℚ × ℚ)))
    (h1 : rand1.length = coarse_logits.length)
    (h2 : rand2.length = coarse_logits.length)
    (hns : ∀ l ∈ rand1, l.length = (⌊(num_points : ℚ) * r⌋).toNat)
    (hnr : ∀ l ∈ rand2, l.length = num_points - (⌊f * (num_points : ℚ)⌋).toNat)
    (hch : ∀ img ∈ coarse_logits, img ≠ [])
    (b : ℕ) (hb : b < coarse_logits.length) :
    (get_uncertain_point_coords_with_randomness coarse_logits u num_points r f
        rand1 rand2).getD b []
      = (topkIdx ((((point_sample coarse_logits rand1).getD b []).headD []).map u)
            (⌊f * (num_points : ℚ)⌋).toNat).map
          (fun j => (rand1.getD b []).getD j (0, 0)) ++ rand2.getD b [] ∧
    (get_uncertain_point_coords_with_randomness coarse_logits u num_points r f
        rand1 rand2).length = coarse_logits.length ∧
    ((((point_sample coarse_logits rand1).getD b []).headD []).map u).length
      = (rand1.getD b []).length := by
  set ns := (⌊(num_points : ℚ) * r⌋).toNat with hnsdef
  set k := (⌊f * (num_points : ℚ)⌋).toNat with hkdef
  have hb1 : b < rand1.length := by rw [h1]; exact hb
  have hb2 : b < rand2.length := by rw [h2]; exact hb
  have hr1b : rand1.getD b [] = rand1[b] := List.getD_eq_getElem _ _ hb1
  have hnsb : (rand1.getD b []).length = ns := hns _ (getD_mem _ _ _ hb1)
  have hpslen : (point_sample coarse_logits rand1).length = coarse_logits.length := by
    unfold point_sample grid_sample
    rw [List.length_map, List.length_zip, List.length_map, h1, min_self]
  have hbps : b < (point_sample coarse_logits rand1).length := by
    rw [hpslen]; exact hb
  have hpsb : (point_sample coarse_logits rand1).getD b []
      = coarse_logits[b].map (fun m =>
          ((rand1[b]).map (fun c => (2 * c.1 - 1, 2 * c.2 - 1))).map
            (fun c => gridSample1 m c.1 c.2)) := by
    rw [List.getD_eq_getElem _ _ hbps]
    unfold point_sample grid_sample
    rw [List.getElem_map, List.getElem_zip, List.getElem_map]
  obtain ⟨m0, tl, hcons⟩ := List.exists_cons_of_ne_nil (hch _ (List.getElem_mem hb))
  have hhead : ((point_sample coarse_logits rand1).getD b []).headD []
      = ((rand1[b]).map (fun c => (2 * c.1 - 1, 2 * c.2 - 1))).map
          (fun c => gridSample1 m0 c.1 c.2) := by
    rw [hpsb, hcons]
    rfl
  have huncLen : ((((point_sample coarse_logits rand1).getD b []).headD []).map u).length
      = (rand1.getD b []).length := by
    rw [hhead, hr1b]
    simp
  set uncRow := (((point_sample coarse_logits rand1).getD b []).headD []).map u
    with huncdef
  have hpulen : ((point_sample coarse_logits rand1).map
      (fun chans => (chans.headD []).map u)).length = coarse_logits.length := by
    rw [List.length_map, hpslen]
  have hselb :
      (((point_sample coarse_logits rand1).map (fun chans => (chans.headD []).map u)).enum.map
        (fun br => (topkIdx br.2 k).map
          (fun j => rand1.flatten.getD (ns * br.1 + j) (0, 0)))).getD b []
      = (topkIdx uncRow k).map (fun j => (rand1.getD b []).getD j (0, 0)) := by
    have hbe : b < (((point_sample coarse_logits rand1).map
        (fun chans => (chans.headD []).map u)).enum).length := by
      rw [List.enum_length, hpulen]; exact hb
    rw [List.getD_eq_getElem _ _ (by rw [List.length_map]; exact hbe),
      List.getElem_map, List.getElem_enum,
      ← List.getD_eq_getElem ((point_sample coarse_logits rand1).map
        (fun chans => (chans.headD []).map u)) ([] : List ℚ) (by rw [hpulen]; exact hb)]
    have hpub : ((point_sample coarse_logits rand1).map
        (fun chans => (chans.headD []).map u)).getD b [] = uncRow := by
      rw [List.getD_eq_getElem _ _ (by rw [hpulen]; exact hb), List.getElem_map, huncdef,
        List.getD_eq_getElem _ _ hbps]
    rw [hpub]
    apply List.map_congr_left
    intro j hj
    have hjlt : j < ns := by
      have h := topkIdx_mem_lt uncRow k j hj
      rw [huncLen, hnsb] at h
      exact h
    have harith : ns * b + j = b * ns + j := by ring
    rw [harith, flatten_getD_uniform (0, 0) ns rand1 b j hns hb1 hjlt]
  have hsellen : (((point_sample coarse_logits rand1).map
      (fun chans => (chans.headD []).map u)).enum.map
      (fun br => (topkIdx br.2 k).map
        (fun j => rand1.flatten.getD (ns * br.1 + j) (0, 0)))).length
      = coarse_logits.length := by
    rw [List.length_map, List.enum_length, hpulen]
  refine ⟨?_, ?_, huncLen⟩
  · unfold get_uncertain_point_coords_with_randomness
    dsimp only
    rw [← hnsdef, ← hkdef]
    by_cases hcase : 0 < num_points - k
    · rw [if_pos hcase]
      have hbz : b < ((((point_sample coarse_logits rand1).map
          (fun chans => (chans.headD []).map u)).enum.map
          (fun br => (topkIdx br.2 k).map
            (fun j => rand1.flatten.getD (ns * br.1 + j) (0, 0)))).zip rand2).length := by
        rw [List.length_zip, hsellen, h2, min_self]
        exact hb
      rw [List.getD_eq_getElem _ _ (by rw [List.length_map]; exact hbz),
        List.getElem_map, List.getElem_zip,
        ← List.getD_eq_getElem _ ([] : List (ℚ × ℚ)) (by rw [hsellen]; exact hb),
        ← List.getD_eq_getElem _ ([] : List (ℚ × ℚ)) hb2, hselb]
    · rw [if_neg hcase]
      have hr2b : rand2.getD b [] = [] := by
        apply List.eq_nil_of_length_eq_zero
        rw [hnr _ (getD_mem _ _ _ hb2)]
        omega
      rw [hr2b, List.append_nil]
      exact hselb
  · unfold get_uncertain_point_coords_with_randomness
    dsimp only
    rw [← hnsdef, ← hkdef]
    by_cases hcase : 0 < num_points - k
    · rw [if_pos hcase, List.length_map, List.length_zip, hsellen, h2, min_self]
    · rw [if_neg hcase]
      exact hsellen

/-- C5. For every coarse-logit tensor, point count `P`, oversample
ratio `r ≥ 1`, importance fraction `f ∈ [0,1]` and every outcome of the
two random draws, adaptive coordinate generation returns exactly `P`
coordinates per box, of which the first `int(f*P)` are the
top-uncertainty candidates gathered from the `int(P*r)`-point
oversampled draw (uncertainty scored on the point-sampled logits; no
unselected candidate scores strictly higher than a selected one) and
the remaining `P - int(f*P)` are the fresh uniform random coordinates;
with `f = 1` and `r = 1` every returned coordinate comes from the
single random draw. -/
theorem get_uncertain_point_coords_with_randomness_spec
    (coarse_logits : List (List (List (List ℚ)))) (u : ℚ → ℚ) (num_points : ℕ)
    (r f : ℚ) (rand1 rand2 : List (List (ℚ × ℚ)))
    (hr : 1 ≤ r) (hf0 : 0 ≤ f) (hf1 : f ≤ 1)
    (h1 : rand1.length = coarse_logits.length)
    (h2 : rand2.length = coarse_logits.length)
    (hns : ∀ l ∈ rand1, l.length = (⌊(num_points : ℚ) * r⌋).toNat)
    (hnr : ∀ l ∈ rand2, l.length = num_points - (⌊f * (num_points : ℚ)⌋).toNat)
    (hch : ∀ img ∈ coarse_logits, img ≠ [])
    (b : ℕ) (hb : b < coarse_logits.length) :
    (get_uncertain_point_coords_with_randomness coarse_logits u num_points r f
        rand1 rand2).length = coarse_logits.length ∧
    ((get_uncertain_point_coords_with_randomness coarse_logits u num_points r f
        rand1 rand2).getD b []).length = num_points ∧
    (get_uncertain_point_coords_with_randomness coarse_logits u num_points r f
        rand1 rand2).getD b []
      = (topkIdx ((((point_sample coarse_logits rand1).getD b []).headD []).map u)
            (⌊f * (num_points : ℚ)⌋).toNat).map
          (fun j => (rand1.getD b []).getD j (0, 0)) ++ rand2.getD b [] ∧
    (∀ i ∈ topkIdx ((((point_sample coarse_logits rand1).getD b []).headD []).map u)
        (⌊f * (num_points : ℚ)⌋).toNat,
      i < (rand1.getD b []).length ∧
      ∀ j < (rand1.getD b []).length,
        j ∉ topkIdx ((((point_sample coarse_logits rand1).getD b []).headD []).map u)
          (⌊f * (num_points : ℚ)⌋).toNat →
        ((((point_sample coarse_logits rand1).getD b []).headD []).map u).getD j 0 ≤
          ((((point_sample coarse_logits rand1).getD b []).headD []).map u).getD i 0) ∧
    (f = 1 → r = 1 →
      ∀ c ∈ (get_uncertain_point_coords_with_randomness coarse_logits u num_points r f
        rand1 rand2).getD b [], c ∈ rand1.getD b []) := by
  obtain ⟨hrow, hlen, hul⟩ :=
    guc_row_eq coarse_logits u num_points r f rand1 rand2 h1 h2 hns hnr hch b hb
  have hP0 : (0 : ℚ) ≤ (num_points : ℚ) := Nat.cast_nonneg _
  have hfP : f * (num_points : ℚ) ≤ (num_points : ℚ) := by nlinarith
  have hPr : (num_points : ℚ) ≤ (num_points : ℚ) * r := by nlinarith
  have hkP : (⌊f * (num_points : ℚ)⌋).toNat ≤ num_points := by
    have h := Int.floor_le_floor hfP
    rw [Int.floor_natCast] at h
    omega
  have hkns : (⌊f * (num_points : ℚ)⌋).toNat ≤ (⌊(num_points : ℚ) * r⌋).toNat := by
    have h := Int.floor_le_floor (le_trans hfP hPr)
    omega
  have hb1 : b < rand1.length := by rw [h1]; exact hb
  have hb2 : b < rand2.length := by rw [h2]; exact hb
  have hnsb : (rand1.getD b []).length = (⌊(num_points : ℚ) * r⌋).toNat :=
    hns _ (getD_mem _ _ _ hb1)
  have hunck : (⌊f * (num_points : ℚ)⌋).toNat ≤
      ((((point_sample coarse_logits rand1).getD b []).headD []).map u).length := by
    rw [hul, hnsb]
    exact hkns
  have htkl : (topkIdx ((((point_sample coarse_logits rand1).getD b []).headD []).map u)
      (⌊f * (num_points : ℚ)⌋).toNat).length = (⌊f * (num_points : ℚ)⌋).toNat :=
    topkIdx_length _ _ hunck
  have hr2len : (rand2.getD b []).length
      = num_points - (⌊f * (num_points : ℚ)⌋).toNat :=
    hnr _ (getD_mem _ _ _ hb2)
  refine ⟨hlen, ?_, hrow, ?_, ?_⟩
  · rw [hrow, List.length_append, List.length_map, htkl, hr2len]
    omega
  · intro i hi
    constructor
    · have h := topkIdx_mem_lt _ _ i hi
      rwa [hul] at h
    · intro j hj hjn
      apply topkIdx_maximal _ _ i hi j _ hjn
      rwa [hul]
  · intro hf hr1 c hc
    rw [hrow] at hc
    rcases List.mem_append.mp hc with h | h
    · obtain ⟨j, hj, rfl⟩ := List.mem_map.mp h
      have hjl : j < (rand1.getD b []).length := by
        have h := topkIdx_mem_lt _ _ j hj
        rwa [hul] at h
      exact getD_mem _ _ _ hjl
    · have hnil : rand2.getD b [] = [] := by
        apply List.eq_nil_of_length_eq_zero
        rw [hr2len]
        subst hf
        rw [one_mul, Int.floor_natCast]
        omega
      rw [hnil] at h
      simp at h

/-- Witness for C5: one box with a 1×1 zero logit map, `P = 2`,
`r = 2`, `f = 1/2`, concrete random draws. -/
theorem get_uncertain_point_coords_with_randomness_spec_witness :
    (get_uncertain_point_coords_with_randomness [[[[(0 : ℚ)]]]] calculate_uncertainty
        2 2 (1 / 2)
        [[(0, 0), (1 / 4, 1 / 4), (1 / 2, 1 / 2), (3 / 4, 3 / 4)]]
        [[(1 / 3, 2 / 3)]]).getD 0 []
      = (topkIdx ((((point_sample [[[[(0 : ℚ)]]]]
              [[(0, 0), (1 / 4, 1 / 4), (1 / 2, 1 / 2), (3 / 4, 3 / 4)]]).getD 0
                []).headD []).map calculate_uncertainty)
            (⌊(1 / 2 : ℚ) * ((2 : ℕ) : ℚ)⌋).toNat).map
          (fun j => (([[(0, 0), (1 / 4, 1 / 4), (1 / 2, 1 / 2), (3 / 4, 3 / 4)]] :
              List (List (ℚ × ℚ))).getD 0 []).getD j (0, 0))
        ++ ([[(1 / 3, 2 / 3)]] : List (List (ℚ × ℚ))).getD 0 [] ∧
    ((get_uncertain_point_coords_with_randomness [[[[(0 : ℚ)]]]] calculate_uncertainty
        2 2 (1 / 2)
        [[(0, 0), (1 / 4, 1 / 4), (1 / 2, 1 / 2), (3 / 4, 3 / 4)]]
        [[(1 / 3, 2 / 3)]]).getD 0 []).length = 2 := by
  have h := get_uncertain_point_coords_with_randomness_spec [[[[(0 : ℚ)]]]]
    calculate_uncertainty 2 2 (1 / 2)
    [[(0, 0), (1 / 4, 1 / 4), (1 / 2, 1 / 2), (3 / 4, 3 / 4)]]
    [[(1 / 3, 2 / 3)]]
    (by norm_num) (by norm_num) (by norm_num) rfl rfl
    (by
      intro l hl
      rw [List.mem_singleton] at hl
      subst hl
      norm_num
      omega)
    (by
      intro l hl
      rw [List.mem_singleton] at hl
      subst hl
      norm_num)
    (by
      intro img himg
      rw [List.mem_singleton] at himg
      subst himg
      simp)
    0 (by norm_num)
  exact ⟨h.2.2.1, h.2.1⟩

/-! ### Dice loss -/

theorem sigmoid_pos (x : ℝ) : 0 < sigmoid x := by
  unfold sigmoid
  positivity

theorem sigmoid_lt_one (x : ℝ) : sigmoid x < 1 := by
  unfold sigmoid
  rw [div_lt_one (by positivity)]
  linarith [Real.exp_pos (-x)]

/-- C9. `dice_loss` is total and well-defined: the sigmoid maps every
logit into `[0, 1]`, so with nonnegative targets every per-pair
denominator `sum_pred + sum_target + 1` is at least `1` (no division by
zero), and with zero matched pairs the summed loss is `0`. -/
theorem dice_loss_total (inputs targets : List (List ℝ)) (num_masks : ℝ)
    (htgt : ∀ row ∈ targets, ∀ t ∈ row, 0 ≤ t) (hnm : 0 < num_masks) :
    (∀ x : ℝ, 0 ≤ sigmoid x ∧ sigmoid x ≤ 1) ∧
    (∀ p ∈ (inputs.map (fun row => row.map sigmoid)).zip targets,
      1 ≤ p.1.sum + p.2.sum + 1) ∧
    (inputs = [] → dice_loss inputs targets num_masks = 0) := by
  refine ⟨?_, ?_, ?_⟩
  · intro x
    exact ⟨le_of_lt (sigmoid_pos x), le_of_lt (sigmoid_lt_one x)⟩
  · rintro ⟨a, b⟩ hp
    obtain ⟨ha, hb⟩ := List.of_mem_zip hp
    rw [List.mem_map] at ha
    obtain ⟨row, _, rfl⟩ := ha
    have h1 : 0 ≤ (row.map sigmoid).sum := by
      apply List.sum_nonneg
      intro y hy
      rw [List.mem_map] at hy
      obtain ⟨x, _, rfl⟩ := hy
      exact le_of_lt (sigmoid_pos x)
    have h2 : 0 ≤ b.sum := List.sum_nonneg (htgt b hb)
    simp only []
    linarith
  · intro h
    subst h
    simp [dice_loss]

/-- Witness for C9 at the zero-matched-pairs input. -/
theorem dice_loss_total_witness :
    (∀ x : ℝ, 0 ≤ sigmoid x ∧ sigmoid x ≤ 1) ∧
    (∀ p ∈ (([] : List (List ℝ)).map (fun row => row.map sigmoid)).zip
        ([] : List (List ℝ)), 1 ≤ p.1.sum + p.2.sum + 1) ∧
    (([] : List (List ℝ)) = [] → dice_loss [] [] 1 = 0) :=
  dice_loss_total [] [] 1 (by simp) (by norm_num)

/-! ### Classification diagnostic `class_error` -/

/-- C2 (as stated, refuted). With one prediction slot and an empty
matched set, `loss_labels` reports `class_error = 100`, not `0`: the
`accuracy` helper returns `0` on an empty target and
`class_error = 100 - accuracy`. -/
theorem class_error_counterexample :
    List.lookup "class_error"
      (loss_labels 2 (1 / 10000) [[[(0 : ℝ), 0]]] [[]] [([], [])] true) = some 100 ∧
    (100 : ℝ) ≠ 0 := by
  constructor
  · unfold loss_labels
    rw [if_pos rfl]
    have hmt : matchedTargets [[]] [([], [])] = [] := rfl
    rw [hmt]
    have hacc : accuracy (matchedLogits [[[(0 : ℝ), 0]]] [([], [])]) [] = 0 := by
      unfold accuracy
      simp
    rw [hacc]
    norm_num [List.lookup]
    rw [show ("class_error" == "loss_ce") = false from rfl]
  · norm_num

/-- C2 (amended). For every input in which the set of matched
prediction slots is empty, the `accuracy` helper returns `0` and the
`class_error` entry of the cross-entropy classification loss therefore
equals `100 - 0 = 100`. -/
theorem class_error_empty_matches (num_classes : ℕ) (eos_coef : ℝ)
    (src_logits : List (List (List ℝ))) (labels : List (List ℕ))
    (indices : List (List ℕ × List ℕ))
    (h : ∀ p ∈ indices, p.2 = []) :
    accuracy (matchedLogits src_logits indices) (matchedTargets labels indices) = 0 ∧
    List.lookup "class_error"
      (loss_labels num_classes eos_coef src_logits labels indices true) = some 100 := by
  have hmt : matchedTargets labels indices = [] := by
    unfold matchedTargets
    rw [List.flatten_eq_nil_iff]
    intro l hl
    rw [List.mem_map] at hl
    obtain ⟨p, hp, rfl⟩ := hl
    rw [h p.2 (List.of_mem_zip hp).2]
    rfl
  have hacc : accuracy (matchedLogits src_logits indices)
      (matchedTargets labels indices) = 0 := by
    rw [hmt]
    unfold accuracy
    simp
  refine ⟨hacc, ?_⟩
  unfold loss_labels
  rw [if_pos rfl, hacc]
  norm_num [List.lookup]
  rw [show ("class_error" == "loss_ce") = false from rfl]

/-- Witness for the amended C2 at a concrete empty-match input. -/
theorem class_error_empty_matches_witness :
    accuracy (matchedLogits [[[(0 : ℝ), 0]]] [([], [])])
      (matchedTargets [[]] [([], [])]) = 0 ∧
    List.lookup "class_error"
      (loss_labels 2 (1 / 10000) [[[(0 : ℝ), 0]]] [[]] [([], [])] true) = some 100 :=
  class_error_empty_matches 2 (1 / 10000) [[[(0 : ℝ), 0]]] [[]] [([], [])]
    (by
      intro p hp
      rw [List.mem_singleton] at hp
      rw [hp])

/-! ### Focal loss reduction -/

theorem sum_zipWith_add (a : List ℝ) :
    ∀ b : List ℝ, a.length = b.length →
      (List.zipWith (· + ·) a b).sum = a.sum + b.sum := by
  induction a with
  | nil =>
      intro b hb
      rcases b with _ | ⟨y, ys⟩
      · simp
      · simp at hb
  | cons x xs ih =>
      intro b hb
      rcases b with _ | ⟨y, ys⟩
      · simp at hb
      · simp only [List.zipWith_cons_cons, List.sum_cons]
        rw [ih ys (by simpa using hb)]
        ring

theorem vecSumC_length (C : ℕ) (rows : List (List ℝ))
    (h : ∀ r ∈ rows, r.length = C) : (vecSumC C rows).length = C := by
  induction rows with
  | nil => simp [vecSumC]
  | cons r rs ih =>
      have hstep : vecSumC C (r :: rs) = List.zipWith (· + ·) r (vecSumC C rs) := rfl
      rw [hstep, List.length_zipWith, ih (fun x hx => h x (List.mem_cons_of_mem r hx)),
        h r (List.mem_cons_self r rs), min_self]

theorem vecSumC_sum (C : ℕ) (rows : List (List ℝ))
    (h : ∀ r ∈ rows, r.length = C) :
    (vecSumC C rows).sum = (rows.map List.sum).sum := by
  induction rows with
  | nil => simp [vecSumC]
  | cons r rs ih =>
      have hstep : vecSumC C (r :: rs) = List.zipWith (· + ·) r (vecSumC C rs) := rfl
      rw [hstep,
        sum_zipWith_add r _ (by
          rw [vecSumC_length C rs (fun x hx => h x (List.mem_cons_of_mem r hx)),
            h r (List.mem_cons_self r rs)]),
        ih (fun x hx => h x (List.mem_cons_of_mem r hx))]
      simp

theorem sum_map_div {α : Type} (l : List α) (f : α → ℝ) (d : ℝ) :
    (l.map (fun x => f x / d)).sum = (l.map f).sum / d := by
  induction l with
  | nil => simp
  | cons x xs ih => simp [ih, add_div]

theorem sum_map_div_self (l : List ℝ) (d : ℝ) :
    (l.map (fun s => s / d)).sum = l.sum / d := by
  induction l with
  | nil => simp
  | cons x xs ih => simp [ih, add_div]

/-- C3 (amended). The focal classification loss equals the elementwise
sigmoid focal loss summed over all entries (batch, prediction slots and
classes) divided by the normalizer: the source's
`loss.mean(1).sum() * src_logits.shape[1] / num_boxes` averages over
the prediction-slot dimension (dim 1), not over the class dimension,
and multiplies back by `N`, collapsing to the plain total sum over the
normalizer. -/
theorem loss_labels_focal_total_sum (num_classes : ℕ) (alpha gamma : ℝ)
    (src_logits : List (List (List ℝ))) (labels : List (List ℕ))
    (indices : List (List ℕ × List ℕ)) (num_boxes : ℝ) (N : ℕ) (hN : 0 < N)
    (hshape : ∀ img ∈ src_logits, img.length = N)
    (hrect : ∀ img ∈ src_logits, ∀ row ∈ img, row.length = num_classes) :
    loss_labels_focal num_classes alpha gamma src_logits labels indices num_boxes
      = ((src_logits.zip
            (oneHotDrop num_classes (targetClasses num_classes src_logits labels indices))).map
          (fun p => ((p.1.zip p.2).map
            (fun q => (List.zipWith (fun x t => sigmoid_focal_loss alpha gamma x t)
              q.1 q.2).sum)).sum)).sum / num_boxes := by
  by_cases hsl : src_logits = []
  · simp [hsl, loss_labels_focal, meanDim1]
  · have hhead : (src_logits.headD []).length = N := by
      obtain ⟨img0, rest, rfl⟩ := List.exists_cons_of_ne_nil hsl
      exact hshape img0 (by simp)
    set tgt := oneHotDrop num_classes (targetClasses num_classes src_logits labels indices)
      with htgt
    set L := (src_logits.zip tgt).map (fun p => (p.1.zip p.2).map
      (fun q => List.zipWith (fun x t => sigmoid_focal_loss alpha gamma x t) q.1 q.2))
      with hL
    have htgtmem : ∀ timg ∈ tgt, timg.length = N ∧
        ∀ trow ∈ timg, trow.length = num_classes := by
      intro timg ht
      rw [htgt] at ht
      unfold oneHotDrop at ht
      rw [List.mem_map] at ht
      obtain ⟨tcrow, htc, rfl⟩ := ht
      constructor
      · rw [List.length_map]
        unfold targetClasses at htc
        rw [List.mem_map] at htc
        obtain ⟨bi, hbi, rfl⟩ := htc
        rw [List.length_map, List.length_range]
        exact hshape bi.1 (List.of_mem_zip hbi).1
      · intro trow htrow
        rw [List.mem_map] at htrow
        obtain ⟨y, _, rfl⟩ := htrow
        rw [List.length_map, List.length_range]
    have himg : ∀ img ∈ L, img.length = N ∧
        ∀ row ∈ img, row.length = num_classes := by
      intro img hmem
      rw [hL] at hmem
      rw [List.mem_map] at hmem
      obtain ⟨p, hp, rfl⟩ := hmem
      rcases p with ⟨pa, pb⟩
      obtain ⟨hp1, hp2⟩ := List.of_mem_zip hp
      constructor
      · rw [List.length_map, List.length_zip, hshape pa hp1, (htgtmem pb hp2).1, min_self]
      · intro row hrow
        rw [List.mem_map] at hrow
        obtain ⟨q, hq, rfl⟩ := hrow
        rcases q with ⟨qa, qb⟩
        obtain ⟨hqa, hqb⟩ := List.of_mem_zip hq
        rw [List.length_zipWith, hrect pa hp1 qa hqa, (htgtmem pb hp2).2 qb hqb, min_self]
    unfold loss_labels_focal
    rw [← htgt, ← hL]
    have h1 : (meanDim1 L).map List.sum
        = L.map (fun img => (img.map List.sum).sum / (N : ℝ)) := by
      unfold meanDim1
      rw [List.map_map]
      apply List.map_congr_left
      intro img hmem
      simp only [Function.comp_apply]
      obtain ⟨hlen, hrows⟩ := himg img hmem
      have hne : img ≠ [] := by
        intro h0
        rw [h0] at hlen
        simp at hlen
        omega
      have hhd : (img.headD []).length = num_classes := by
        obtain ⟨r0, rs, rfl⟩ := List.exists_cons_of_ne_nil hne
        exact hrows r0 (by simp)
      rw [hhd, sum_map_div_self, vecSumC_sum num_classes img hrows, hlen]
    rw [h1, sum_map_div L (fun img => (img.map List.sum).sum) ((N : ℝ)), hhead]
    have hNne : ((N : ℕ) : ℝ) ≠ 0 := by
      exact_mod_cast Nat.pos_iff_ne_zero.mp hN
    rw [div_mul_cancel₀ _ hNne]
    congr 1
    rw [hL, List.map_map]
    apply congrArg List.sum
    apply List.map_congr_left
    intro p hp
    simp only [Function.comp_apply]
    rw [List.map_map]
    rfl

theorem focal_at_zero :
    sigmoid_focal_loss (1 / 5) 2 0 0 = Real.log 2 / 5 := by
  have hs : sigmoid 0 = 1 / 2 := by
    unfold sigmoid
    rw [neg_zero, Real.exp_zero]
    norm_num
  unfold sigmoid_focal_loss
  rw [hs]
  rw [show (1 : ℝ) - (1 / 2 * 0 + (1 - 1 / 2) * (1 - 0)) = 2⁻¹ by norm_num]
  rw [show (1 : ℝ) - 1 / 2 = 2⁻¹ by norm_num]
  rw [Real.log_inv]
  rw [show ((2 : ℝ) : ℝ) = ((2 : ℕ) : ℝ) by norm_num]
  rw [Real.rpow_natCast]
  norm_num
  ring

/-- C3 (as stated, refuted). With one prediction slot (`N = 1`) and two
classes (`C = 2`), zero logits and no matches, the code's reduction
(`mean` over dim 1 = slots) yields `2 * (log 2 / 5)` while the spec's
reduction (average over classes, sum over slots, rescale by
`N/normalizer`) yields `log 2 / 5`; the two differ by the factor
`N / C`. -/
theorem loss_labels_focal_spec_counterexample :
    loss_labels_focal 2 (1 / 5) 2 [[[(0 : ℝ), 0]]] [[]] [([], [])] 1
      = 2 * (Real.log 2 / 5) ∧
    specFocalReduction 2 (1 / 5) 2 [[[(0 : ℝ), 0]]] [[]] [([], [])] 1
      = Real.log 2 / 5 ∧
    loss_labels_focal 2 (1 / 5) 2 [[[(0 : ℝ), 0]]] [[]] [([], [])] 1
      ≠ specFocalReduction 2 (1 / 5) 2 [[[(0 : ℝ), 0]]] [[]] [([], [])] 1 := by
  have hv : sigmoid_focal_loss (5 : ℝ)⁻¹ 2 0 0 = Real.log 2 / 5 := by
    rw [show ((5 : ℝ)⁻¹) = 1 / 5 by norm_num]
    exact focal_at_zero
  have hlog : 0 < Real.log 2 := Real.log_pos (by norm_num)
  have h1 : loss_labels_focal 2 (1 / 5) 2 [[[(0 : ℝ), 0]]] [[]] [([], [])] 1
      = 2 * (Real.log 2 / 5) := by
    simp [loss_labels_focal, targetClasses, oneHotDrop, meanDim1, vecSumC,
      List.range_succ]
    rw [hv]
    ring
  have h2 : specFocalReduction 2 (1 / 5) 2 [[[(0 : ℝ), 0]]] [[]] [([], [])] 1
      = Real.log 2 / 5 := by
    simp [specFocalReduction, targetClasses, oneHotDrop, List.range_succ]
    rw [hv]
  refine ⟨h1, h2, ?_⟩
  rw [h1, h2]
  intro h
  have : Real.log 2 = 0 := by linarith
  linarith

/-- Witness for the amended C3 at a concrete one-slot two-class
input. -/
theorem loss_labels_focal_total_sum_witness :
    loss_labels_focal 2 (1 / 5) 2 [[[(0 : ℝ), 0]]] [[]] [([], [])] 1
      = ((([[[(0 : ℝ), 0]]] : List (List (List ℝ))).zip
            (oneHotDrop 2 (targetClasses 2 [[[(0 : ℝ), 0]]] [[]] [([], [])]))).map
          (fun p => ((p.1.zip p.2).map
            (fun q => (List.zipWith (fun x t => sigmoid_focal_loss (1 / 5) 2 x t)
              q.1 q.2).sum)).sum)).sum / 1 :=
  loss_labels_focal_total_sum 2 (1 / 5) 2 [[[(0 : ℝ), 0]]] [[]] [([], [])] 1 1
    (by norm_num)
    (by
      intro img h
      rw [List.mem_singleton] at h
      rw [h]
      rfl)
    (by
      intro img h row hr
      rw [List.mem_singleton] at h
      subst h
      rw [List.mem_singleton] at hr
      rw [hr]
      rfl)
